import Mathlib

/-!
Verification of the structural graph engine of this repository
(import resolution, dependency-graph building, importance scoring,
and 2D layout post-processing), as a shallow embedding in Lean.

Sources embedded:
- `cli/scanner.py`   : `_resolve_js_like`, `_resolve_py_like`,
  `_extract_imports_for_file`, `build_dependency_graph`,
  `_read_text_capped`.
- `cli/score_repo_files.py` : `build_import_graph`, `runtime_signal`,
  `churn_weight`, the scoring expression of `score_files`, the
  entrypoint fallback of `score_files`, `iter_source_files`.
- `cli/generate_graph_position.py` : the graph-consumption step of
  `main` and `de_overlap`.

Machine text (file contents) is modelled at the level the code actually
consumes it: each file record carries the list of import specifiers
its import regexes match, and paths are lists of components.  Floating point
arithmetic of the layout code is modelled over `ℚ`; `math.hypot` is
modelled exactly on axis-aligned displacements, and every concrete
configuration evaluated below stays in that regime (all displacement
vectors keep `dy = 0` throughout).
-/

namespace Ghost

/-! ## String helpers mirroring `pathlib` / `os.path` -/

/-- Split a character list at every occurrence of `sep`, keeping empty
segments — the semantics of Python's `str.split(sep)` for a one-character
separator. -/
def splitOnChar (sep : Char) : List Char → List (List Char)
  | [] => [[]]
  | c :: rest =>
    let r := splitOnChar sep rest
    if c = sep then [] :: r
    else
      match r with
      | [] => [[c]]
      | h :: t => (c :: h) :: t

/-- `str.split(sep)` on strings, one-character separator. -/
def splitStr (sep : Char) (s : String) : List String :=
  (splitOnChar sep s.toList).map String.mk

/-- `s.startswith(".")`. -/
def startsWithDot (s : String) : Bool :=
  match s.toList with
  | [] => false
  | c :: _ => c = '.'

/-- `str.lower()` (character-wise). -/
def lowerStr (s : String) : String :=
  String.mk (s.toList.map Char.toLower)

/-- `str.strip()`: whitespace removed from both ends. -/
def trimStr (s : String) : String :=
  String.mk (((s.toList.dropWhile Char.isWhitespace).reverse.dropWhile
    Char.isWhitespace).reverse)

/-- Drop the first `n` characters of a string. -/
def strDrop (s : String) (n : ℕ) : String :=
  String.mk (s.toList.drop n)

/-- Index of the last `'.'` in a character list, if any. -/
def lastDotIdx (cs : List Char) : Option Nat :=
  ((List.range cs.length).filter (fun i => cs.getD i ' ' = '.')).getLast?

/-- `pathlib.PurePath.stem` of a single file name: the name without its
final extension; a dot at position 0 or at the very end does not start
an extension. -/
def stemOf (name : String) : String :=
  let cs := name.toList
  match lastDotIdx cs with
  | none => name
  | some i => if 0 < i ∧ i + 1 < cs.length then String.mk (cs.take i) else name

/-- `pathlib.PurePath.suffix` of a single file name (the final extension,
including the dot), `""` when there is none. -/
def extOf (name : String) : String :=
  let cs := name.toList
  match lastDotIdx cs with
  | none => ""
  | some i => if 0 < i ∧ i + 1 < cs.length then String.mk (cs.drop i) else ""

/-- `os.path.basename` for forward-slash paths. -/
def basenameOf (s : String) : String :=
  ((splitStr '/' s).getLastD s)

/-! ## Importance Scorer: score formula (`score_repo_files.py`) -/

def W_ENTRYPOINT : ℤ := 4
def W_RUNTIME : ℤ := 3
def W_IMPORTED_BY : ℤ := 2
def W_CHURN : ℤ := 1
def W_TOOLING_PENALTY : ℤ := -3
def W_TEST_PENALTY : ℤ := -2
def W_TYPES_PENALTY : ℤ := -1
def CHURN_CAP : ℕ := 5

/-- A 0/1 indicator, mirroring the `return 1` / `return 0` detectors. -/
def b2i (b : Bool) : ℤ := if b then 1 else 0

/-- `runtime_signal`: the four content/path cues each add 1, and the sum
is capped with `min(score, 2)`.  The cues themselves are regex/path
checks on the file; they enter here as booleans. -/
def runtime_signal (pathHint dbCue archCue envCue : Bool) : ℕ :=
  min ((if pathHint then 1 else 0) + (if dbCue then 1 else 0) +
       (if archCue then 1 else 0) + (if envCue then 1 else 0)) 2

/-- `churn_weight(raw) = min(raw, CHURN_CAP)`. -/
def churn_weight (raw : ℕ) : ℕ := min raw CHURN_CAP

/-- The scoring expression of `score_files` (lines 251–259): the weighted
linear combination of the already-computed components. -/
def score_of (isEntry : Bool) (runtime : ℕ) (importedBy : ℕ) (churnW : ℕ)
    (tooling test typesOnly : Bool) : ℤ :=
  W_ENTRYPOINT * b2i isEntry +
  W_RUNTIME * (runtime : ℤ) +
  W_IMPORTED_BY * (importedBy : ℤ) +
  W_CHURN * (churnW : ℤ) +
  W_TOOLING_PENALTY * b2i tooling +
  W_TEST_PENALTY * b2i test +
  W_TYPES_PENALTY * b2i typesOnly

/-! ## Importance Scorer: `build_import_graph` (stem-keyed reverse counts) -/

/-- One file as `build_import_graph` sees it: its repository-relative
forward-slash path and the list of import specifier strings its import
regexes (`PY_IMPORT_RE` / `JS_IMPORT_RE` / `JS_REQUIRE_RE`) match in the
file's content.  The regex layer is modelled by this extracted list. -/
structure ScoreFile where
  rel : String
  specs : List String
deriving DecidableEq, Repr

/-- The set `imported_keys` that `build_import_graph` collects for one
file: for Python files, each matched module string is stripped, split on
commas, and the first dotted component kept; for JS/TS files only
specifiers starting with `"."` contribute, keyed by the first-dot prefix
of their basename.  Being a Python `set`, duplicates collapse
(`eraseDups`). -/
def importedKeysOf (f : ScoreFile) : List String :=
  let sfx := extOf (basenameOf f.rel)
  if sfx = ".py" then
    (((f.specs.map (fun mod => trimStr mod)).filter (fun mod => mod ≠ "")).flatMap
      (fun mod => (splitStr ',' mod).map (fun part => trimStr part))).filterMap
      (fun mm =>
        let st := (splitStr '.' mm).headD ""
        if st ≠ "" then some st else none) |>.eraseDups
  else if sfx = ".js" ∨ sfx = ".jsx" ∨ sfx = ".ts" ∨ sfx = ".tsx" then
    (f.specs.filterMap (fun spec =>
      if startsWithDot spec then
        let st := (splitStr '.' (basenameOf spec)).headD ""
        if st ≠ "" then some st else none
      else none)).eraseDups
  else []

/-- The stems (`p.stem`) of the scanned files — the keys of
`paths_by_key`. -/
def stemsOf (files : List ScoreFile) : List String :=
  files.map (fun f => stemOf (basenameOf f.rel))

/-- The counter `imported_by`: a key that is the stem of some scanned
file is incremented once per scanned file whose `imported_keys` set
contains it; any other key stays at the counter default 0. -/
def imported_by (files : List ScoreFile) (key : String) : ℕ :=
  if key ∈ stemsOf files then
    (files.filter (fun f => decide (key ∈ importedKeysOf f))).length
  else 0

/-- `imported_by_count[rel] = imported_by[file_key_by_relpath[rel]]`,
where the key of a path is its filename stem. -/
def imported_by_count (files : List ScoreFile) (rel : String) : ℕ :=
  imported_by files (stemOf (basenameOf rel))

/-! ## Importance Scorer: entrypoint fallback (`score_files`) -/

/-- The slice of one scored record that the fallback block reads or
writes: the entrypoint flag, the `imported_by` component (equal, record
by record, to the `imported_by_count` value for its path) and the total
score. -/
structure ScoredMeta where
  isEntry : Bool
  importedBy : ℕ
  score : ℤ
deriving DecidableEq, Repr

/-- One step of Python's `max(items, key=lambda kv: kv[1])`: the best so
far is replaced only by a strictly larger value, so the first maximal
item of the iteration wins ties. -/
def fmStep (best y : String × ℕ) : String × ℕ :=
  if best.2 < y.2 then y else best

/-- `max(imported_by_count.items(), key=lambda kv: kv[1])` over the
items in insertion order, `none` on an empty dict. -/
def firstMaxBy : List (String × ℕ) → Option (String × ℕ)
  | [] => none
  | x :: xs => some (xs.foldl fmStep x)

/-- The retroactive flagging:
`meta["components"]["is_entrypoint"] = 1; meta["score"] += W_ENTRYPOINT`. -/
def setEntry (m : ScoredMeta) : ScoredMeta :=
  { m with isEntry := true, score := m.score + W_ENTRYPOINT }

/-- The `for i, (rel, meta) in enumerate(scored): if rel == rel_central:
…; break` loop: update the first record carrying the given path. -/
def updateFirst : List (String × ScoredMeta) → String → List (String × ScoredMeta)
  | [], _ => []
  | (rel, m) :: rest, rc =>
    if rel = rc then (rel, setEntry m) :: rest
    else (rel, m) :: updateFirst rest rc

/-- The fallback block of `score_files` (lines 284–295): when no record
is flagged as entrypoint, take the first maximal item of
`imported_by_count` (whose items are exactly the scored paths paired
with their `imported_by` components, in scoring order) and flag that
record, adding the entrypoint weight to its score.  `if rel_central:`
is Python truthiness, so an empty path would skip the update. -/
def applyFallback (scored : List (String × ScoredMeta)) :
    List (String × ScoredMeta) :=
  if scored.any (fun x => x.2.isEntry) then scored
  else
    match firstMaxBy (scored.map (fun x => (x.1, x.2.importedBy))) with
    | none => scored
    | some rc => if rc.1 = "" then scored else updateFirst scored rc.1

/-! ## Scorer: `iter_source_files` and scanner `_read_text_capped` -/

def MAX_FILE_BYTES : ℕ := 400000

def IGNORE_DIRS : List String :=
  [".git", "node_modules", ".venv", "dist", "build", "__pycache__",
   ".mypy_cache", ".tox", ".idea"]

def DEFAULT_EXTS : List String := [".py", ".js", ".jsx", ".ts", ".tsx"]

/-- One regular file as the scorer's directory walk sees it: its
root-relative path components and its size in bytes. -/
structure ScanEntry where
  rel : List String
  size : ℕ
deriving DecidableEq, Repr

/-- `iter_source_files`: keeps a file iff its lowered suffix is in
`exts`, no component of its relative path is an ignored directory name,
and its size is at most `MAX_FILE_BYTES` (strictly larger files are not
collected at all). -/
def iter_source_files (files : List ScanEntry) (exts : List String) :
    List ScanEntry :=
  files.filter (fun f =>
    decide (lowerStr (extOf (f.rel.getLastD "")) ∈ exts ∧
            (∀ part ∈ f.rel, part ∉ IGNORE_DIRS) ∧
            f.size ≤ MAX_FILE_BYTES))

/-- `_read_text_capped` (scanner): reads the file's bytes and truncates
to `maxBytes` when longer; it always returns content (decoding with
`errors="ignore"` is dropped as the byte content is what matters). -/
def read_text_capped (data : List ℕ) (maxBytes : ℕ) : List ℕ :=
  if data.length > maxBytes then data.take maxBytes else data

/-! ## Import Resolver and Graph Builder (`scanner.py`)

An absolute filesystem path is a list of components.  `Path.resolve()`
on absolute paths is modelled by `normalizePath` (drop `"."`, pop on
`".."`, clamping at the filesystem root); the model assumes the paths
stored in the filesystem are already in this normal form, as the real
scanner's are. -/

abbrev FPath := List String

/-- Normalization of `"."` / `".."` components, as `Path.resolve()`
performs on an absolute path (no symlinks in the model). -/
def normalizePath (comps : List String) : FPath :=
  comps.foldl
    (fun acc c =>
      if c = "." then acc
      else if c = ".." then acc.dropLast
      else acc ++ [c]) []

/-- One non-binary file on disk, with the import specifier strings the
scanner's regexes (`RE_JS_IMPORTS` / `RE_PY_IMPORTS`, after Vue
script-block extraction) match in its content.  The regex layer is
modelled by this extracted list. -/
structure FSFile where
  path : FPath
  specs : List String
deriving DecidableEq, Repr

/-- The filesystem: existing regular files and existing directories. -/
structure FS where
  files : List FSFile
  dirs : List FPath
deriving DecidableEq, Repr

/-- `Path.exists()` for a regular file. -/
def FS.hasFile (fs : FS) (p : FPath) : Prop := p ∈ fs.files.map FSFile.path

instance (fs : FS) (p : FPath) : Decidable (fs.hasFile p) := by
  unfold FS.hasFile; infer_instance

/-- `Path.exists()`: true for files and directories alike. -/
def FS.ex (fs : FS) (p : FPath) : Prop := fs.hasFile p ∨ p ∈ fs.dirs

instance (fs : FS) (p : FPath) : Decidable (fs.ex p) := by
  unfold FS.ex; infer_instance

def jsTsExts : List String := [".js", ".jsx", ".ts", ".tsx", ".mjs", ".cjs", ".vue"]
def pyExts : List String := [".py"]
def jsIndexCandidates : List String :=
  ["index.ts", "index.tsx", "index.js", "index.jsx", "index.mjs", "index.cjs", "index.vue"]
def jsFileExtsTry : List String :=
  [".ts", ".tsx", ".js", ".jsx", ".mjs", ".cjs", ".vue", ".json"]
def pyFileExtsTry : List String := [".py", "/__init__.py"]

/-- `Path(str(p) + ext)`: appending text to the final component. -/
def withExt (p : FPath) (ext : String) : FPath :=
  match p with
  | [] => [ext]
  | _ => p.dropLast ++ [p.getLastD "" ++ ext]

/-- `_resolve_js_like`: ignore non-relative specifiers; join with the
importing file's directory and resolve; take the path itself when it
already has an extension and exists, else the first existing
extension-extended candidate, else the first existing index file when
the path is an existing directory; otherwise nothing. -/
def resolve_js_like (fs : FS) (spec : String) (srcFile : FPath) (rt : FPath) :
    Option FPath :=
  if ¬ startsWithDot spec then none
  else
    let base := normalizePath (srcFile.dropLast ++ splitStr '/' spec)
    if extOf (base.getLastD "") ≠ "" ∧ fs.ex base then some base
    else
      match jsFileExtsTry.find? (fun ext => decide (fs.ex (withExt base ext))) with
      | some ext => some (withExt base ext)
      | none =>
        if fs.ex base ∧ base ∈ fs.dirs then
          match jsIndexCandidates.find? (fun nm => decide (fs.ex (base ++ [nm]))) with
          | some nm => some (base ++ [nm])
          | none => none
        else none

/-- Number of leading dots of a module string. -/
def leadingDots (s : String) : ℕ :=
  (s.toList.takeWhile (fun c => c = '.')).length

/-- `_resolve_py_like`: ignore absolute modules; pop one ancestor per
leading dot starting from the importing file's directory, append the
remaining dotted components, and try `<dir>.py` then
`<dir>/__init__.py`. -/
def resolve_py_like (fs : FS) (module : String) (srcFile : FPath) (rt : FPath) :
    Option FPath :=
  if ¬ startsWithDot module then none
  else
    let dots := leadingDots module
    let remainder := strDrop module dots
    let base := List.dropLast^[dots] srcFile.dropLast
    let targetDir := if remainder = "" then base else base ++ splitStr '.' remainder
    if fs.ex (withExt targetDir ".py") then some (withExt targetDir ".py")
    else if fs.ex (targetDir ++ ["__init__.py"]) then some (targetDir ++ ["__init__.py"])
    else none

/-- `tgt.resolve().relative_to(root.resolve())`: succeeds exactly when
`root` is a prefix, returning the remainder; the `except: continue`
around it is the `none` case. -/
def relativeToOpt (rt p : FPath) : Option FPath :=
  if rt.isPrefixOf p then some (p.drop rt.length) else none

/-- `_extract_imports_for_file`: dispatch on the lowered suffix, resolve
each matched specifier, and keep only targets that are inside the
repository root, as root-relative paths, in match order. -/
def extract_imports_for_file (fs : FS) (f : FSFile) (rt : FPath) : List FPath :=
  let sfx := lowerStr (extOf (f.path.getLastD ""))
  if sfx ∈ jsTsExts then
    f.specs.filterMap (fun s =>
      (resolve_js_like fs s f.path rt).bind (fun tgt => relativeToOpt rt tgt))
  else if sfx ∈ pyExts then
    f.specs.filterMap (fun s =>
      (resolve_py_like fs s f.path rt).bind (fun tgt => relativeToOpt rt tgt))
  else []

def IGNORED_DIRS : List String :=
  [".git", ".hg", ".svn", "node_modules", ".pnpm-store", ".venv", "venv",
   "__pycache__", "dist", "build", ".next", ".nuxt", "out", ".cache",
   ".idea", ".vscode", ".terraform", "target", "coverage",
   ".pytest_cache", ".mypy_cache"]

/-- `_should_ignore_dir`. -/
def shouldIgnoreDir (name : String) : Bool :=
  decide (name ∈ IGNORED_DIRS) || startsWithDot name

/-- The candidate source files `build_dependency_graph` collects: files
under the root whose walk never enters a pruned directory and whose
lowered suffix is a JS/TS/Vue or Python extension, in walk order (the
model's file list order).  Binary detection is modelled by the
filesystem containing only non-binary files. -/
def walkSourceFiles (fs : FS) (rt : FPath) : List FSFile :=
  fs.files.filter (fun f =>
    rt.isPrefixOf f.path &&
    ((f.path.drop rt.length).dropLast).all (fun c => ¬ shouldIgnoreDir c) &&
    decide (lowerStr (extOf (f.path.getLastD "")) ∈ jsTsExts ++ pyExts))

/-- The produced graph: nodes `(id, label)` and `(source, target)`
edges, ids being POSIX-style root-relative paths. -/
structure DepGraph where
  nodes : List (String × String)
  edges : List (String × String)
deriving DecidableEq, Repr

/-- The characters of components joined with `'/'`. -/
def joinSlash : List String → List Char
  | [] => []
  | [s] => s.toList
  | s :: rest => s.toList ++ '/' :: joinSlash rest

/-- `rel.as_posix()`. -/
def pathId (rel : FPath) : String := String.mk (joinSlash rel)

/-- `_add_node`: insert once, keyed by id, label = basename. -/
def addNode (ns : List (String × String)) (rel : FPath) : List (String × String) :=
  if pathId rel ∈ ns.map Prod.fst then ns
  else ns ++ [(pathId rel, rel.getLastD "")]

/-- The ids of a node list. -/
def idsOf (ns : List (String × String)) : List String := ns.map Prod.fst

/-- The per-source-file body of the edge loop of
`build_dependency_graph`: for each resolved target of `f`, add a node
for the target and append the edge. -/
def addTargets (fs : FS) (rt : FPath)
    (acc : List (String × String) × List (String × String)) (f : FSFile) :
    List (String × String) × List (String × String) :=
  let srcRel := f.path.drop rt.length
  (extract_imports_for_file fs f rt).foldl
    (fun acc2 tgtRel =>
      (addNode acc2.1 tgtRel, acc2.2 ++ [(pathId srcRel, pathId tgtRel)]))
    acc

/-- `build_dependency_graph`: one node per scanned source file, then per
source file one edge (and a node for the target) per resolved
relative import, duplicates retained. -/
def build_dependency_graph (fs : FS) (rt : FPath) : DepGraph :=
  let srcs := walkSourceFiles fs rt
  let nodes0 := srcs.foldl (fun ns f => addNode ns (f.path.drop rt.length)) []
  let built := srcs.foldl (addTargets fs rt) (nodes0, [])
  ⟨built.1, built.2⟩

/-- The ids of the scanned source files, in walk order. -/
def scannedIds (fs : FS) (rt : FPath) : List String :=
  (walkSourceFiles fs rt).map (fun f => pathId (f.path.drop rt.length))

/-- Number of edges of a graph whose target is a given id. -/
def targetCount (g : DepGraph) (id : String) : ℕ :=
  (g.edges.filter (fun e => e.2 == id)).length

/-! ## Layout Engine: graph consumption in `generate_graph_position.main` -/

/-- The JSON graph artifact as `main` reads it: node ids and
(source, target) edge pairs. -/
structure GraphData where
  nodes : List String
  edges : List (String × String)
deriving DecidableEq, Repr

/-- The edges actually added to the `networkx` graph: `main` adds an edge
only when `s in G and t in G`; an edge mentioning an unknown node id is
silently skipped — there is no error path. -/
def layout_graph_edges (d : GraphData) : List (String × String) :=
  d.edges.filter (fun e =>
    decide (e.1 ∈ d.nodes ∧ e.2 ∈ d.nodes))

/-- The edge list written to the output artifact:
`out = {"nodes": nodes_out, "edges": data.get("edges", [])}` — the
unfiltered input list is passed through. -/
def layout_output_edges (d : GraphData) : List (String × String) :=
  d.edges

/-! ## Layout Engine: `de_overlap` (`generate_graph_position.py`)

Positions are rational pairs; the node list of the position dict is
modelled by list indices.  `math.hypot` is modelled exactly on
axis-aligned displacements (`hypot(dx, 0) = |dx|`, `hypot(0, dy) =
|dy|`); the norm of a displacement with both components nonzero is
irrational in general and falls outside the rational model (mapped to
0, a regime no configuration evaluated in this file enters: every run
below keeps `dy = 0` throughout, where the model is exact). -/

/-- Exact rational model of `math.hypot dx dy` on axis-aligned
displacements. -/
def hypotQ (dx dy : ℚ) : ℚ :=
  if dy = 0 then |dx| else if dx = 0 then |dy| else 0

/-- `dist = math.hypot(dx, dy) or 1e-6`. -/
def distOf (dx dy : ℚ) : ℚ :=
  let h := hypotQ dx dy
  if h = 0 then 1 / 1000000 else h

/-- The body of the `dist < min_dist` branch of `de_overlap` for one
pair: push both points apart symmetrically along their connecting line
by half the shortfall. -/
def pair_adjust (minDist : ℚ) (pi pj : ℚ × ℚ) : (ℚ × ℚ) × (ℚ × ℚ) :=
  let dx := pj.1 - pi.1
  let dy := pj.2 - pi.2
  let dist := distOf dx dy
  if dist < minDist then
    let push := (1 / 2) * (minDist - dist) / dist
    let ox := dx * push
    let oy := dy * push
    ((pi.1 - ox, pi.2 - oy), (pj.1 + ox, pj.2 + oy))
  else (pi, pj)

/-- One inner-loop step of `de_overlap` at indices `(i, j)`.  Faithful
to the source, `(xi, yi)` is the value read once at the top of the
`i` iteration (stale across the `j` loop), while `pos[j]` is re-read;
when the pair is close both cells are overwritten, `pos[i]` from the
stale `(xi, yi)`. -/
def innerJ (minDist : ℚ) (i : ℕ) (xi yi : ℚ) (pos : List (ℚ × ℚ)) (j : ℕ) :
    List (ℚ × ℚ) :=
  let pj := pos.getD j (0, 0)
  let dx := pj.1 - xi
  let dy := pj.2 - yi
  let dist := distOf dx dy
  if dist < minDist then
    let push := (1 / 2) * (minDist - dist) / dist
    let ox := dx * push
    let oy := dy * push
    (pos.set i (xi - ox, yi - oy)).set j (pj.1 + ox, pj.2 + oy)
  else pos

/-- The `i` iteration of a `de_overlap` pass: read `pos[i]` once, then
run `j` over `i+1, …, n-1`. -/
def iStep (minDist : ℚ) (pos : List (ℚ × ℚ)) (i : ℕ) : List (ℚ × ℚ) :=
  let pi := pos.getD i (0, 0)
  (List.range' (i + 1) (pos.length - (i + 1))).foldl
    (fun ps j => innerJ minDist i pi.1 pi.2 ps j) pos

/-- One full pass of `de_overlap`. -/
def onePass (minDist : ℚ) (pos : List (ℚ × ℚ)) : List (ℚ × ℚ) :=
  (List.range pos.length).foldl (iStep minDist) pos

/-- `de_overlap(pos, min_dist, passes)`. -/
def de_overlap (pos : List (ℚ × ℚ)) (minDist : ℚ) (passes : ℕ) :
    List (ℚ × ℚ) :=
  (List.range passes).foldl (fun ps _ => onePass minDist ps) pos

/-! ## Concrete repositories and inputs used below -/

/-- Repository root for the duplicate-import repository. -/
def exRoot : FPath := ["repo"]

/-- A repository of three JS files where `a.js` contains two distinct
statements both importing `./b`, and `c.js` is unreferenced. -/
def exFS : FS :=
  ⟨[⟨["repo", "a.js"], ["./b", "./b"]⟩,
    ⟨["repo", "b.js"], []⟩,
    ⟨["repo", "c.js"], []⟩], [["repo"]]⟩

/-- The same three files as the scorer's `build_import_graph` sees them. -/
def exScoreFiles : List ScoreFile :=
  [⟨"a.js", ["./b", "./b"]⟩, ⟨"b.js", []⟩, ⟨"c.js", []⟩]

/-- Scenario A for the scorer: `a.js` imports `./b` once, `c.js` is
unreferenced and imports nothing. -/
def scenA : List ScoreFile :=
  [⟨"a.js", ["./b"]⟩, ⟨"b.js", []⟩, ⟨"c.js", []⟩]

/-- Two same-stem files plus one importer, for the stem-keying witness. -/
def w10 : List ScoreFile :=
  [⟨"x.js", ["./util"]⟩, ⟨"a/util.js", []⟩, ⟨"b/util.ts", []⟩]

/-- An oversized source file: one byte over the cap. -/
def bigFile : ScanEntry := ⟨["big.py"], 400001⟩

/-- Three scored records with no entrypoint flag, where the maximal
reverse count 2 is attained first by `y.py`. -/
def w5 : List (String × ScoredMeta) :=
  [("x.py", ⟨false, 0, 0⟩), ("y.py", ⟨false, 2, 4⟩), ("z.py", ⟨false, 2, 4⟩)]

/-- A graph artifact with an edge whose target id is not in the node
set. -/
def danglingData : GraphData := ⟨["a.js"], [("a.js", "ghost.js")]⟩

/-- Four collinear positions (`y = 0` throughout, so every distance the
algorithm computes is exactly rational). -/
def c7pre : List (ℚ × ℚ) := [(15, 0), (22, 0), (20, 0), (12, 0)]

/-! ## Theorems -/

/-- C4: for every scored node, the total score equals
`4·is_entrypoint + 3·runtime_signal + 2·reverse_edge_count +
1·churn_weight − 3·is_tooling_config − 2·is_test_or_fixture −
1·is_types_only`, where `churn_weight = min(raw, 5)` and the runtime
signal is capped at 2. -/
theorem c4_score_formula (e ph db ar en : Bool) (rev raw : ℕ) (t tst ty : Bool) :
    score_of e (runtime_signal ph db ar en) rev (churn_weight raw) t tst ty =
      4 * b2i e + 3 * (runtime_signal ph db ar en : ℤ) + 2 * (rev : ℤ) +
      1 * ((min raw 5 : ℕ) : ℤ) - 3 * b2i t - 2 * b2i tst - 1 * b2i ty ∧
    runtime_signal ph db ar en ≤ 2 ∧ churn_weight raw = min raw 5 := by
  refine ⟨?_, ?_, rfl⟩
  · simp only [score_of, W_ENTRYPOINT, W_RUNTIME, W_IMPORTED_BY, W_CHURN,
      W_TOOLING_PENALTY, W_TEST_PENALTY, W_TYPES_PENALTY, churn_weight, CHURN_CAP]
    ring
  · exact Nat.min_le_right _ _

/-- C9: increasing a node's reverse-edge count while holding the other
score components fixed never decreases its total score. -/
theorem c9_monotone (e : Bool) (r churnW : ℕ) (t tst ty : Bool) (rev rev' : ℕ)
    (h : rev ≤ rev') :
    score_of e r rev churnW t tst ty ≤ score_of e r rev' churnW t tst ty := by
  unfold score_of W_IMPORTED_BY
  have hc : (rev : ℤ) ≤ (rev' : ℤ) := by exact_mod_cast h
  linarith

/-- Witness for C9 at a concrete input. -/
theorem c9_monotone_witness :
    (0 : ℕ) ≤ 3 ∧
    score_of true 1 0 2 false false false ≤ score_of true 1 3 2 false false false :=
  ⟨by decide, c9_monotone true 1 2 false false false 0 3 (by decide)⟩

/-- C10: two scanned files with equal filename stems always receive the
same reverse-edge count, because `build_import_graph` keys its counter
by filename stem, not by full path. -/
theorem c10_stem_keyed (files : List ScoreFile) (f g : ScoreFile)
    (hf : f ∈ files) (hg : g ∈ files)
    (h : stemOf (basenameOf f.rel) = stemOf (basenameOf g.rel)) :
    imported_by_count files f.rel = imported_by_count files g.rel := by
  unfold imported_by_count
  rw [h]

/-- Witness for C10: `a/util.js` and `b/util.ts` share the stem `util`
and receive the same count in a repository where `x.js` imports
`./util`. -/
theorem c10_stem_keyed_witness :
    (⟨"a/util.js", []⟩ : ScoreFile) ∈ w10 ∧
    imported_by_count w10 "a/util.js" = imported_by_count w10 "b/util.ts" :=
  ⟨by decide,
   c10_stem_keyed w10 ⟨"a/util.js", []⟩ ⟨"b/util.ts", []⟩
     (by decide) (by decide) (by decide)⟩

/-- C8 counterexample: a `.py` file one byte over `MAX_FILE_BYTES` is
not truncated but dropped from the scorer's file collection entirely —
it does not participate in the pipeline. -/
theorem c8_counterexample :
    MAX_FILE_BYTES < bigFile.size ∧
    iter_source_files [bigFile] DEFAULT_EXTS = [] := by decide

/-- C8 amended: the scanner's capped read truncates to the cap and
always returns content, while the scorer's file iteration excludes any
file whose size exceeds `MAX_FILE_BYTES` from scoring entirely. -/
theorem c8_amended :
    (∀ (data : List ℕ) (maxBytes : ℕ),
        read_text_capped data maxBytes = data.take maxBytes) ∧
    (∀ (files : List ScanEntry) (exts : List String) (f : ScanEntry),
        f ∈ iter_source_files files exts ↔
          f ∈ files ∧ lowerStr (extOf (f.rel.getLastD "")) ∈ exts ∧
          (∀ part ∈ f.rel, part ∉ IGNORE_DIRS) ∧ f.size ≤ MAX_FILE_BYTES) := by
  constructor
  · intro data maxBytes
    unfold read_text_capped
    by_cases h : data.length > maxBytes
    · simp [h]
    · simp [h, List.take_of_length_le (Nat.le_of_not_lt h)]
  · intro files exts f
    simp [iter_source_files, List.mem_filter, and_assoc]

/-- C6 counterexample: fed a graph with an edge whose target id is
absent from the node set, the layout's graph-consumption step does not
reject the input; it silently drops the edge from the working graph and
still passes the original edge list through to the output. -/
theorem c6_counterexample :
    danglingData.edges ≠ [] ∧
    layout_graph_edges danglingData = [] ∧
    layout_output_edges danglingData = danglingData.edges := by decide

/-- C6 amended: an edge referencing an unknown node id is silently
omitted from the layout graph (an edge is kept iff both endpoints are
known), processing proceeds, and the unfiltered input edge list is
passed through to the output artifact. -/
theorem c6_amended (d : GraphData) (e : String × String) :
    (e ∈ layout_graph_edges d ↔
      e ∈ d.edges ∧ e.1 ∈ d.nodes ∧ e.2 ∈ d.nodes) ∧
    layout_output_edges d = d.edges := by
  refine ⟨?_, rfl⟩
  simp [layout_graph_edges, List.mem_filter]

/-- C1 counterexample: in a repository where `a.js` imports `./b` by two
distinct import statements, the built dependency graph has two edges
targeting `b.js`, but the scorer's reverse count for `b.js` is 1 — the
scorer collects each file's imported stems into a set, so duplicated
statements collapse, and the two quantities differ. -/
theorem c1_counterexample :
    targetCount (build_dependency_graph exFS exRoot) "b.js" = 2 ∧
    imported_by_count exScoreFiles "b.js" = 1 ∧
    imported_by_count exScoreFiles "b.js" ≠
      targetCount (build_dependency_graph exFS exRoot) "b.js" := by decide

/-- C1 amended: the scorer's reverse count for a scanned file equals the
number of scanned files whose deduplicated set of extracted import
stems contains that file's stem (each importing file counted once,
however many import statements it has); in Scenario A this gives
`reverse_edge_count(B) = 1` and `reverse_edge_count(A) =
reverse_edge_count(C) = 0`. -/
theorem c1_amended :
    (∀ (files : List ScoreFile) (f : ScoreFile), f ∈ files →
        imported_by_count files f.rel =
          (files.filter (fun g =>
            decide (stemOf (basenameOf f.rel) ∈ importedKeysOf g))).length) ∧
    (imported_by_count scenA "b.js" = 1 ∧ imported_by_count scenA "a.js" = 0 ∧
     imported_by_count scenA "c.js" = 0) := by
  constructor
  · intro files f hf
    unfold imported_by_count imported_by
    rw [if_pos]
    unfold stemsOf
    exact List.mem_map.mpr ⟨f, hf, rfl⟩
  · exact ⟨by decide, by decide, by decide⟩

/-- Witness for C1 amended, at the Scenario A repository. -/
theorem c1_amended_witness :
    (⟨"b.js", []⟩ : ScoreFile) ∈ scenA ∧
    imported_by_count scenA "b.js" =
      (scenA.filter (fun g =>
        decide (stemOf (basenameOf "b.js") ∈ importedKeysOf g))).length :=
  ⟨by decide, c1_amended.1 scenA ⟨"b.js", []⟩ (by decide)⟩

/-- Membership in the ids after `addNode`. -/
theorem mem_idsOf_addNode {ns : List (String × String)} {rel : FPath}
    {x : String} :
    x ∈ idsOf (addNode ns rel) ↔ x ∈ idsOf ns ∨ x = pathId rel := by
  unfold addNode idsOf
  split_ifs with h
  · constructor
    · exact Or.inl
    · rintro (hx | rfl)

      exacts [hx, h]
  · rw [List.map_append]
    simp [List.mem_append]

/-- `addNode` only grows the id set. -/
theorem idsOf_addNode_sub {ns : List (String × String)} {rel : FPath}
    {x : String} (h : x ∈ idsOf ns) : x ∈ idsOf (addNode ns rel) :=
  mem_idsOf_addNode.mpr (Or.inl h)

/-- `addNode` makes its own id present. -/
theorem pathId_mem_addNode {ns : List (String × String)} {rel : FPath} :
    pathId rel ∈ idsOf (addNode ns rel) :=
  mem_idsOf_addNode.mpr (Or.inr rfl)

/-- `addNode` keeps the id list duplicate-free. -/
theorem nodup_addNode {ns : List (String × String)} {rel : FPath}
    (h : (idsOf ns).Nodup) : (idsOf (addNode ns rel)).Nodup := by
  unfold addNode idsOf at *
  split_ifs with hmem
  · exact h
  · rw [List.map_append]
    simp only [List.map_cons, List.map_nil]
    exact List.Nodup.append h (List.nodup_singleton _)
      (by simpa [List.disjoint_singleton] using hmem)

/-- Folding `addNode` over a list only grows the id set. -/
theorem foldl_addNode_mono (g : FSFile → FPath) :
    ∀ (l : List FSFile) (ns : List (String × String)) (x : String),
      x ∈ idsOf ns →
      x ∈ idsOf (l.foldl (fun ns f => addNode ns (g f)) ns) := by
  intro l
  induction l with
  | nil =>
    intro ns x h
    exact h
  | cons f l' ih =>
    intro ns x h
    rw [List.foldl_cons]
    exact ih _ x (idsOf_addNode_sub h)

/-- After folding `addNode`, every processed element's id is present. -/
theorem foldl_addNode_self (g : FSFile → FPath) :
    ∀ (l : List FSFile) (ns : List (String × String)) (f : FSFile),
      f ∈ l →
      pathId (g f) ∈ idsOf (l.foldl (fun ns f => addNode ns (g f)) ns) := by
  intro l
  induction l with
  | nil =>
    intro ns f hf
    cases hf
  | cons f' l' ih =>
    intro ns f hf
    rw [List.foldl_cons]
    rcases List.mem_cons.mp hf with rfl | hf'
    · exact foldl_addNode_mono g l' _ _ pathId_mem_addNode
    · exact ih _ f hf'

/-- Folding `addNode` keeps the id list duplicate-free. -/
theorem foldl_addNode_nodup (g : FSFile → FPath) :
    ∀ (l : List FSFile) (ns : List (String × String)),
      (idsOf ns).Nodup →
      (idsOf (l.foldl (fun ns f => addNode ns (g f)) ns)).Nodup := by
  intro l
  induction l with
  | nil =>
    intro ns h
    exact h
  | cons f l' ih =>
    intro ns h
    rw [List.foldl_cons]
    exact ih _ (nodup_addNode h)

/-- The ids after folding `addNode` are the initial ids plus the ids of
the processed elements. -/
theorem foldl_addNode_mem_iff (g : FSFile → FPath) :
    ∀ (l : List FSFile) (ns : List (String × String)) (x : String),
      x ∈ idsOf (l.foldl (fun ns f => addNode ns (g f)) ns) ↔
        x ∈ idsOf ns ∨ ∃ f ∈ l, x = pathId (g f) := by
  intro l
  induction l with
  | nil =>
    intro ns x
    simp
  | cons f l' ih =>
    intro ns x
    rw [List.foldl_cons, ih, mem_idsOf_addNode]
    constructor
    · rintro ((hx | rfl) | ⟨f', hf', rfl⟩)
      · exact Or.inl hx
      · exact Or.inr ⟨f, List.mem_cons_self _ _, rfl⟩
      · exact Or.inr ⟨f', List.mem_cons_of_mem _ hf', rfl⟩
    · rintro (hx | ⟨f', hf', rfl⟩)
      · exact Or.inl (Or.inl hx)
      · rcases List.mem_cons.mp hf' with rfl | hf''
        · exact Or.inl (Or.inr rfl)
        · exact Or.inr ⟨f', hf'', rfl⟩

/-- The invariant carried through the edge-building fold: edges with
both endpoints among the ids, duplicate-free ids, the phase-one ids all
present, and the ids characterized as phase-one ids plus edge targets. -/
def BuildInv (N0 : List String)
    (acc : List (String × String) × List (String × String)) : Prop :=
  (∀ e ∈ acc.2, e.1 ∈ idsOf acc.1 ∧ e.2 ∈ idsOf acc.1) ∧
  (idsOf acc.1).Nodup ∧
  (∀ x ∈ N0, x ∈ idsOf acc.1) ∧
  (∀ x, x ∈ idsOf acc.1 ↔ x ∈ N0 ∨ ∃ s, (s, x) ∈ acc.2)

/-- One edge-appending step preserves the invariant when the source id
is a phase-one id. -/
theorem buildInv_step {N0 : List String} {sid : String} (hsid : sid ∈ N0)
    (t : FPath) (acc : List (String × String) × List (String × String))
    (h : BuildInv N0 acc) :
    BuildInv N0 (addNode acc.1 t, acc.2 ++ [(sid, pathId t)]) := by
  obtain ⟨he, hn, hsub, hch⟩ := h
  refine ⟨?_, nodup_addNode hn, ?_, ?_⟩
  · intro e hee
    rcases List.mem_append.mp hee with h1 | h2
    · obtain ⟨a1, a2⟩ := he e h1
      exact ⟨idsOf_addNode_sub a1, idsOf_addNode_sub a2⟩
    · rw [List.mem_singleton] at h2
      subst h2
      exact ⟨idsOf_addNode_sub (hsub sid hsid), pathId_mem_addNode⟩
  · intro x hx
    exact idsOf_addNode_sub (hsub x hx)
  · intro x
    rw [mem_idsOf_addNode, hch x]
    constructor
    · rintro ((hx | ⟨s, hs⟩) | rfl)
      · exact Or.inl hx
      · exact Or.inr ⟨s, List.mem_append_left _ hs⟩
      · exact Or.inr ⟨sid, List.mem_append_right _ (List.mem_singleton.mpr rfl)⟩
    · rintro (hx | ⟨s, hs⟩)
      · exact Or.inl (Or.inl hx)
      · rcases List.mem_append.mp hs with h1 | h2
        · exact Or.inl (Or.inr ⟨s, h1⟩)
        · rw [List.mem_singleton] at h2
          exact Or.inr (congrArg Prod.snd h2)

/-- The inner fold over one file's targets preserves the invariant. -/
theorem buildInv_innerFold {N0 : List String} {sid : String} (hsid : sid ∈ N0) :
    ∀ (ts : List FPath) (acc : List (String × String) × List (String × String)),
      BuildInv N0 acc →
      BuildInv N0 (ts.foldl
        (fun acc2 t => (addNode acc2.1 t, acc2.2 ++ [(sid, pathId t)])) acc) := by
  intro ts
  induction ts with
  | nil =>
    intro acc h
    exact h
  | cons t ts' ih =>
    intro acc h
    rw [List.foldl_cons]
    exact ih _ (buildInv_step hsid t acc h)

/-- The outer fold over all source files preserves the invariant. -/
theorem buildInv_outer (fs : FS) (rt : FPath) {N0 : List String} :
    ∀ (l : List FSFile)
      (acc : List (String × String) × List (String × String)),
      (∀ f ∈ l, pathId (f.path.drop rt.length) ∈ N0) →
      BuildInv N0 acc →
      BuildInv N0 (l.foldl (addTargets fs rt) acc) := by
  intro l
  induction l with
  | nil =>
    intro acc _ h
    exact h
  | cons f l' ih =>
    intro acc hl h
    rw [List.foldl_cons]
    refine ih _ (fun f' hf' => hl f' (List.mem_cons_of_mem _ hf')) ?_
    exact buildInv_innerFold (hl f (List.mem_cons_self _ _))
      (extract_imports_for_file fs f rt) acc h

/-- C2: in every produced graph, both endpoints of every edge are node
ids, the node ids are duplicate-free, and a node id exists exactly for
the scanned source files plus the targets of the produced edges (one
node per distinct path seen as scanned source or resolution target). -/
theorem c2_graph_integrity (fs : FS) (rt : FPath) :
    (∀ e ∈ (build_dependency_graph fs rt).edges,
        e.1 ∈ idsOf (build_dependency_graph fs rt).nodes ∧
        e.2 ∈ idsOf (build_dependency_graph fs rt).nodes) ∧
    (idsOf (build_dependency_graph fs rt).nodes).Nodup ∧
    (∀ x, x ∈ idsOf (build_dependency_graph fs rt).nodes ↔
        x ∈ scannedIds fs rt ∨
        ∃ s, (s, x) ∈ (build_dependency_graph fs rt).edges) := by
  have hg : build_dependency_graph fs rt =
      ⟨((walkSourceFiles fs rt).foldl (addTargets fs rt)
          ((walkSourceFiles fs rt).foldl
            (fun ns f => addNode ns (f.path.drop rt.length)) [], [])).1,
       ((walkSourceFiles fs rt).foldl (addTargets fs rt)
          ((walkSourceFiles fs rt).foldl
            (fun ns f => addNode ns (f.path.drop rt.length)) [], [])).2⟩ := rfl
  have h0 : BuildInv
      (idsOf ((walkSourceFiles fs rt).foldl
        (fun ns f => addNode ns (f.path.drop rt.length)) []))
      ((walkSourceFiles fs rt).foldl
        (fun ns f => addNode ns (f.path.drop rt.length)) [], []) := by
    refine ⟨by simp, ?_, fun x hx => hx, by simp⟩
    exact foldl_addNode_nodup _ _ _ (by simp [idsOf])
  have hsrc : ∀ f ∈ walkSourceFiles fs rt,
      pathId (f.path.drop rt.length) ∈
        idsOf ((walkSourceFiles fs rt).foldl
          (fun ns f => addNode ns (f.path.drop rt.length)) []) :=
    fun f hf => foldl_addNode_self _ _ _ f hf
  have hinv := buildInv_outer fs rt (walkSourceFiles fs rt) _ hsrc h0
  obtain ⟨he, hn, _, hch⟩ := hinv
  have hids0 : ∀ x,
      x ∈ idsOf ((walkSourceFiles fs rt).foldl
        (fun ns f => addNode ns (f.path.drop rt.length)) []) ↔
      x ∈ scannedIds fs rt := by
    intro x
    rw [foldl_addNode_mem_iff]
    simp [scannedIds, idsOf, eq_comm]
  rw [hg]
  refine ⟨he, hn, ?_⟩
  intro x
  rw [hch x, hids0 x]
theorem fmFold_spec (xs : List (String × ℕ)) (x : String × ℕ) :
    ∃ pre post, x :: xs = pre ++ (xs.foldl fmStep x) :: post ∧
      (∀ y ∈ pre, y.2 < (xs.foldl fmStep x).2) ∧
      (∀ y ∈ x :: xs, y.2 ≤ (xs.foldl fmStep x).2) := by
  induction xs generalizing x with
  | nil =>
    refine ⟨[], [], rfl, by simp, ?_⟩
    intro y hy
    rw [List.mem_singleton.mp hy, List.foldl_nil]
  | cons y ys ih =>
    rw [List.foldl_cons]
    by_cases hxy : x.2 < y.2
    · have hstep : fmStep x y = y := if_pos hxy
      rw [hstep]
      obtain ⟨pre, post, hdec, hlt, hle⟩ := ih y
      refine ⟨x :: pre, post, by rw [List.cons_append, ← hdec], ?_, ?_⟩
      · intro z hz
        rcases List.mem_cons.mp hz with rfl | hz'
        · exact lt_of_lt_of_le hxy (hle y (List.mem_cons_self _ _))
        · exact hlt z hz'
      · intro z hz
        rcases List.mem_cons.mp hz with rfl | hz'
        · exact le_of_lt (lt_of_lt_of_le hxy (hle y (List.mem_cons_self _ _)))
        · exact hle z hz'
    · have hstep : fmStep x y = x := if_neg hxy
      rw [hstep]
      obtain ⟨pre, post, hdec, hlt, hle⟩ := ih x
      cases pre with
      | nil =>
        rw [List.nil_append] at hdec
        have hx : x = ys.foldl fmStep x := (List.cons.inj hdec).1
        have hpost : ys = post := (List.cons.inj hdec).2
        refine ⟨[], y :: ys, ?_, by simp, ?_⟩
        · rw [List.nil_append, ← hx]
        · intro z hz
          rcases List.mem_cons.mp hz with rfl | hz'
          · exact hle z (List.mem_cons_self _ _)
          · rcases List.mem_cons.mp hz' with rfl | hz''
            · exact le_trans (le_of_not_lt hxy) (hle x (List.mem_cons_self _ _))
            · exact hle z (List.mem_cons_of_mem _ hz'')
      | cons p pre' =>
        rw [List.cons_append] at hdec
        have hp : x = p := (List.cons.inj hdec).1
        have hys : ys = pre' ++ ys.foldl fmStep x :: post := (List.cons.inj hdec).2
        refine ⟨x :: y :: pre', post, ?_, ?_, ?_⟩
        · rw [List.cons_append, List.cons_append, ← hys]
        · intro z hz
          rcases List.mem_cons.mp hz with rfl | hz'
          · exact hp ▸ hlt p (List.mem_cons_self _ _)
          · rcases List.mem_cons.mp hz' with rfl | hz''
            · exact lt_of_le_of_lt (le_of_not_lt hxy)
                (hp ▸ hlt p (List.mem_cons_self _ _))
            · exact hlt z (List.mem_cons_of_mem _ hz'')
        · intro z hz
          rcases List.mem_cons.mp hz with rfl | hz'
          · exact hle z (List.mem_cons_self _ _)
          · rcases List.mem_cons.mp hz' with rfl | hz''
            · exact le_trans (le_of_not_lt hxy) (hle x (List.mem_cons_self _ _))
            · exact hle z (List.mem_cons_of_mem _ hz'')

/-- A decomposition of a mapped list lifts to the original list. -/
theorem map_eq_append_cons {α β : Type} (f : α → β) :
    ∀ (l : List α) (p : List β) (r : β) (q : List β),
      l.map f = p ++ r :: q →
      ∃ a x b, l = a ++ x :: b ∧ a.map f = p ∧ f x = r ∧ b.map f = q := by
  intro l
  induction l with
  | nil =>
    intro p r q h
    rw [List.map_nil] at h
    cases p <;> simp_all
  | cons hd tl ih =>
    intro p r q h
    cases p with
    | nil =>
      rw [List.map_cons, List.nil_append] at h
      have h1 : f hd = r := (List.cons.inj h).1
      have h2 : tl.map f = q := (List.cons.inj h).2
      exact ⟨[], hd, tl, by rw [List.nil_append], List.map_nil, h1, h2⟩
    | cons pb p' =>
      rw [List.map_cons, List.cons_append] at h
      have h1 : f hd = pb := (List.cons.inj h).1
      have h2 : tl.map f = p' ++ r :: q := (List.cons.inj h).2
      obtain ⟨a, x, b, hl, hp, hr, hq⟩ := ih p' r q h2
      exact ⟨hd :: a, x, b, by rw [hl, List.cons_append],
             by rw [List.map_cons, hp, h1], hr, hq⟩

/-- `updateFirst` rewrites exactly the first record with the target
path when no earlier record carries it. -/
theorem updateFirst_eq (b : String × ScoredMeta) (c : List (String × ScoredMeta)) :
    ∀ (a : List (String × ScoredMeta)), (∀ y ∈ a, y.1 ≠ b.1) →
      updateFirst (a ++ b :: c) b.1 = a ++ (b.1, setEntry b.2) :: c := by
  intro a
  induction a with
  | nil =>
    intro _
    rw [List.nil_append, List.nil_append]
    obtain ⟨rel, m⟩ := b
    simp [updateFirst]
  | cons y a' ih =>
    intro h
    obtain ⟨rel, m⟩ := y
    have hne : rel ≠ b.1 := h (rel, m) (List.mem_cons_self _ _)
    rw [List.cons_append, List.cons_append]
    show updateFirst ((rel, m) :: (a' ++ b :: c)) b.1 = _
    unfold updateFirst
    rw [if_neg hne, ih (fun z hz => h z (List.mem_cons_of_mem _ hz))]

/-- C5: when a non-empty scored list has no entrypoint-flagged record,
the fallback flags exactly one record — the one with maximal
`imported_by`, ties broken by first-encountered order — and adds the
entrypoint weight to its score, leaving every other record unchanged. -/
theorem c5_entrypoint_fallback (scored : List (String × ScoredMeta))
    (hne : scored ≠ [])
    (hzero : ∀ x ∈ scored, x.2.isEntry = false)
    (hnodup : (scored.map Prod.fst).Nodup)
    (hrels : ∀ x ∈ scored, x.1 ≠ "") :
    ∃ pre x post,
      scored = pre ++ x :: post ∧
      applyFallback scored = pre ++ (x.1, setEntry x.2) :: post ∧
      (setEntry x.2).isEntry = true ∧
      (setEntry x.2).score = x.2.score + W_ENTRYPOINT ∧
      (∀ y ∈ pre, y.2.importedBy < x.2.importedBy) ∧
      (∀ y ∈ scored, y.2.importedBy ≤ x.2.importedBy) ∧
      ((applyFallback scored).filter (fun y => y.2.isEntry)).length = 1 := by
  have hany : scored.any (fun x => x.2.isEntry) = false := by
    rw [List.any_eq_false]
    intro x hx
    simp [hzero x hx]
  obtain ⟨s0, rest, rfl⟩ : ∃ s0 rest, scored = s0 :: rest := by
    cases scored with
    | nil => exact absurd rfl hne
    | cons a l => exact ⟨a, l, rfl⟩
  obtain ⟨pre1, post1, hdec1, hlt1, hle1⟩ :=
    fmFold_spec (rest.map (fun x => (x.1, x.2.importedBy)))
      (s0.1, s0.2.importedBy)
  set r := (rest.map (fun x => (x.1, x.2.importedBy))).foldl fmStep
    (s0.1, s0.2.importedBy) with hr
  have hfm : firstMaxBy ((s0 :: rest).map (fun x => (x.1, x.2.importedBy))) =
      some r := by
    rw [List.map_cons]
    rfl
  have hdecm : (s0 :: rest).map (fun x => (x.1, x.2.importedBy)) =
      pre1 ++ r :: post1 := by
    rw [List.map_cons]
    exact hdec1
  obtain ⟨a, x, b, hl, hpa, hxr, hqb⟩ :=
    map_eq_append_cons (fun z : String × ScoredMeta => (z.1, z.2.importedBy))
      (s0 :: rest) pre1 r post1 hdecm
  have hr1 : r.1 = x.1 := by rw [← hxr]
  have hr2 : r.2 = x.2.importedBy := by rw [← hxr]
  have hx_mem : x ∈ s0 :: rest := by
    rw [hl]
    exact List.mem_append_right _ (List.mem_cons_self _ _)
  have hrne : r.1 ≠ "" := by
    rw [hr1]
    exact hrels x hx_mem
  have happ : applyFallback (s0 :: rest) = updateFirst (s0 :: rest) r.1 := by
    have hcond : ¬ ((s0 :: rest).any (fun x => x.2.isEntry) = true) := by
      simp [hany]
    unfold applyFallback
    rw [if_neg hcond, hfm]
    change (if r.1 = "" then (s0 :: rest) else updateFirst (s0 :: rest) r.1) = _
    rw [if_neg hrne]
  have hane : ∀ y ∈ a, y.1 ≠ x.1 := by
    intro y hy heq
    rw [hl, List.map_append, List.map_cons] at hnodup
    obtain ⟨_, _, hdisj⟩ := List.nodup_append.mp hnodup
    exact hdisj (List.mem_map_of_mem _ hy) (heq ▸ List.mem_cons_self _ _)
  have hupd : updateFirst (s0 :: rest) r.1 = a ++ (x.1, setEntry x.2) :: b := by
    rw [hr1, hl]
    exact updateFirst_eq x b a hane
  refine ⟨a, x, b, hl, by rw [happ, hupd], rfl, rfl, ?_, ?_, ?_⟩
  · intro y hy
    have hmem : (y.1, y.2.importedBy) ∈ pre1 := by
      rw [← hpa]
      exact List.mem_map_of_mem _ hy
    have hthis := hlt1 _ hmem
    rw [hr2] at hthis
    exact hthis
  · intro y hy
    have hmem : (y.1, y.2.importedBy) ∈
        (s0.1, s0.2.importedBy) :: rest.map (fun x => (x.1, x.2.importedBy)) := by
      have hm := List.mem_map_of_mem
        (fun z : String × ScoredMeta => (z.1, z.2.importedBy)) hy
      rw [List.map_cons] at hm
      exact hm
    have hthis := hle1 _ hmem
    rw [hr2] at hthis
    exact hthis
  · rw [happ, hupd, List.filter_append, List.filter_cons]
    have hfa : a.filter (fun y => y.2.isEntry) = [] := by
      rw [List.filter_eq_nil_iff]
      intro y hy
      simp [hzero y (by rw [hl]; exact List.mem_append_left _ hy)]
    have hfb : b.filter (fun y => y.2.isEntry) = [] := by
      rw [List.filter_eq_nil_iff]
      intro y hy
      simp [hzero y (by
        rw [hl]
        exact List.mem_append_right _ (List.mem_cons_of_mem _ hy))]
    rw [hfa, hfb]
    simp [setEntry]

/-- Witness for C5 at a concrete scored list: `y.py` — the first record
attaining the maximal reverse count — is the one flagged. -/
theorem c5_entrypoint_fallback_witness :
    ∃ pre x post,
      w5 = pre ++ x :: post ∧
      applyFallback w5 = pre ++ (x.1, setEntry x.2) :: post ∧
      (setEntry x.2).isEntry = true ∧
      (setEntry x.2).score = x.2.score + W_ENTRYPOINT ∧
      (∀ y ∈ pre, y.2.importedBy < x.2.importedBy) ∧
      (∀ y ∈ w5, y.2.importedBy ≤ x.2.importedBy) ∧
      ((applyFallback w5).filter (fun y => y.2.isEntry)).length = 1 :=
  c5_entrypoint_fallback w5 (by decide) (by decide) (by decide) (by decide)

/-- On its exact regime, a nonzero value of `hypotQ` is the Euclidean
norm: its square is `dx² + dy²`. -/
theorem hypotQ_sq {dx dy d : ℚ} (h : hypotQ dx dy = d) (hd : d ≠ 0) :
    d ^ 2 = dx ^ 2 + dy ^ 2 := by
  unfold hypotQ at h
  split_ifs at h with h1 h2
  · subst h1
    rw [← h, sq_abs]
    ring
  · subst h2
    rw [← h, sq_abs]
    ring
  · exact absurd h.symm hd

/-- C7 amended: a single de-overlap update of one pair, at the moment it
is applied, never pushes that pair closer — when the pair's exact
distance `d` satisfies `0 < d < min_dist`, the update places the pair at
squared distance exactly `min_dist²`, which is at least the pre-update
squared distance.  (Across the full passes the claimed monotonicity
fails; see the counterexample.) -/
theorem c7_amended (minDist : ℚ) (pi pj : ℚ × ℚ) (d : ℚ)
    (h : hypotQ (pj.1 - pi.1) (pj.2 - pi.2) = d)
    (hd0 : 0 < d) (hlt : d < minDist) :
    ((pair_adjust minDist pi pj).2.1 - (pair_adjust minDist pi pj).1.1) ^ 2 +
        ((pair_adjust minDist pi pj).2.2 - (pair_adjust minDist pi pj).1.2) ^ 2 =
      minDist ^ 2 ∧
    (pj.1 - pi.1) ^ 2 + (pj.2 - pi.2) ^ 2 ≤
      ((pair_adjust minDist pi pj).2.1 - (pair_adjust minDist pi pj).1.1) ^ 2 +
        ((pair_adjust minDist pi pj).2.2 - (pair_adjust minDist pi pj).1.2) ^ 2 := by
  have hdne : d ≠ 0 := ne_of_gt hd0
  have hsq := hypotQ_sq h hdne
  have hdist : distOf (pj.1 - pi.1) (pj.2 - pi.2) = d := by
    simp only [distOf, h]
    exact if_neg hdne
  have hadj : pair_adjust minDist pi pj =
      ((pi.1 - (pj.1 - pi.1) * ((1 / 2) * (minDist - d) / d),
        pi.2 - (pj.2 - pi.2) * ((1 / 2) * (minDist - d) / d)),
       (pj.1 + (pj.1 - pi.1) * ((1 / 2) * (minDist - d) / d),
        pj.2 + (pj.2 - pi.2) * ((1 / 2) * (minDist - d) / d))) := by
    simp only [pair_adjust, hdist, if_pos hlt]
  have hnew : ((pair_adjust minDist pi pj).2.1 - (pair_adjust minDist pi pj).1.1) ^ 2 +
      ((pair_adjust minDist pi pj).2.2 - (pair_adjust minDist pi pj).1.2) ^ 2 =
      minDist ^ 2 := by
    rw [hadj]
    have e1 : (pj.1 + (pj.1 - pi.1) * ((1 / 2) * (minDist - d) / d)) -
        (pi.1 - (pj.1 - pi.1) * ((1 / 2) * (minDist - d) / d)) =
        (pj.1 - pi.1) * (minDist / d) := by
      field_simp
      ring
    have e2 : (pj.2 + (pj.2 - pi.2) * ((1 / 2) * (minDist - d) / d)) -
        (pi.2 - (pj.2 - pi.2) * ((1 / 2) * (minDist - d) / d)) =
        (pj.2 - pi.2) * (minDist / d) := by
      field_simp
      ring
    calc ((pj.1 + (pj.1 - pi.1) * ((1 / 2) * (minDist - d) / d)) -
            (pi.1 - (pj.1 - pi.1) * ((1 / 2) * (minDist - d) / d))) ^ 2 +
          ((pj.2 + (pj.2 - pi.2) * ((1 / 2) * (minDist - d) / d)) -
            (pi.2 - (pj.2 - pi.2) * ((1 / 2) * (minDist - d) / d))) ^ 2
        = ((pj.1 - pi.1) ^ 2 + (pj.2 - pi.2) ^ 2) * (minDist / d) ^ 2 := by
          rw [e1, e2]; ring
      _ = d ^ 2 * (minDist / d) ^ 2 := by rw [← hsq]
      _ = minDist ^ 2 := by
          field_simp
  refine ⟨hnew, ?_⟩
  rw [hnew, ← hsq]
  have h0 : 0 ≤ d := le_of_lt hd0
  have := pow_le_pow_left₀ h0 (le_of_lt hlt) 2
  exact this

/-- Witness for C7 amended at a concrete axis-aligned pair. -/
theorem c7_amended_witness :
    hypotQ ((3 : ℚ) - 0) ((0 : ℚ) - 0) = 3 ∧ (0 : ℚ) < 3 ∧ (3 : ℚ) < 10 ∧
    ((pair_adjust 10 (0, 0) (3, 0)).2.1 - (pair_adjust 10 (0, 0) (3, 0)).1.1) ^ 2 +
        ((pair_adjust 10 (0, 0) (3, 0)).2.2 - (pair_adjust 10 (0, 0) (3, 0)).1.2) ^ 2 =
      (10 : ℚ) ^ 2 :=
  ⟨by norm_num [hypotQ, abs], by norm_num, by norm_num,
   (c7_amended 10 (0, 0) (3, 0) 3 (by norm_num [hypotQ, abs])
     (by norm_num) (by norm_num)).1⟩

/-- C3: the import resolver never yields a target outside the repository
root — every yielded root-relative path comes from some specifier whose
resolution succeeded and whose resolved absolute target has the root as
a prefix — and a file none of whose specifiers resolve contributes
nothing (unresolvable and out-of-root specifiers are dropped silently,
there being no error path). -/
theorem c3_resolver_containment (fs : FS) (f : FSFile) (rt : FPath) :
    (∀ rel ∈ extract_imports_for_file fs f rt,
       ∃ spec ∈ f.specs, ∃ tgt : FPath,
         (resolve_js_like fs spec f.path rt = some tgt ∨
          resolve_py_like fs spec f.path rt = some tgt) ∧
         rt.isPrefixOf tgt = true ∧ rel = tgt.drop rt.length) ∧
    ((∀ spec ∈ f.specs, resolve_js_like fs spec f.path rt = none ∧
        resolve_py_like fs spec f.path rt = none) →
      extract_imports_for_file fs f rt = []) := by
  constructor
  · intro rel hrel
    unfold extract_imports_for_file at hrel
    dsimp only at hrel
    split_ifs at hrel with h1 h2
    · obtain ⟨spec, hspec, heq⟩ := List.mem_filterMap.mp hrel
      obtain ⟨tgt, htgt, hto⟩ := Option.bind_eq_some.mp heq
      refine ⟨spec, hspec, tgt, Or.inl htgt, ?_, ?_⟩
      · unfold relativeToOpt at hto
        by_cases hp : rt.isPrefixOf tgt
        · exact hp
        · rw [if_neg hp] at hto
          cases hto
      · unfold relativeToOpt at hto
        by_cases hp : rt.isPrefixOf tgt
        · rw [if_pos hp] at hto
          exact (Option.some_inj.mp hto).symm
        · rw [if_neg hp] at hto
          cases hto
    · obtain ⟨spec, hspec, heq⟩ := List.mem_filterMap.mp hrel
      obtain ⟨tgt, htgt, hto⟩ := Option.bind_eq_some.mp heq
      refine ⟨spec, hspec, tgt, Or.inr htgt, ?_, ?_⟩
      · unfold relativeToOpt at hto
        by_cases hp : rt.isPrefixOf tgt
        · exact hp
        · rw [if_neg hp] at hto
          cases hto
      · unfold relativeToOpt at hto
        by_cases hp : rt.isPrefixOf tgt
        · rw [if_pos hp] at hto
          exact (Option.some_inj.mp hto).symm
        · rw [if_neg hp] at hto
          cases hto
    · cases hrel
  · intro hall
    unfold extract_imports_for_file
    dsimp only
    split_ifs with h1 h2
    · apply List.filterMap_eq_nil_iff.mpr
      intro spec hspec
      rw [(hall spec hspec).1]
      rfl
    · apply List.filterMap_eq_nil_iff.mpr
      intro spec hspec
      rw [(hall spec hspec).2]
      rfl
    · rfl

/-- Witness for C3: in the concrete repository, the resolver's yield
`b.js` for `a.js` comes from an in-root resolution of `./b`. -/
theorem c3_resolver_containment_witness :
    ∃ spec ∈ (⟨["repo", "a.js"], ["./b", "./b"]⟩ : FSFile).specs,
      ∃ tgt : FPath,
        (resolve_js_like exFS spec ["repo", "a.js"] exRoot = some tgt ∨
         resolve_py_like exFS spec ["repo", "a.js"] exRoot = some tgt) ∧
        exRoot.isPrefixOf tgt = true ∧ ["b.js"] = tgt.drop exRoot.length :=
  (c3_resolver_containment exFS ⟨["repo", "a.js"], ["./b", "./b"]⟩ exRoot).1
    ["b.js"] (by decide)

/-- C7 counterexample: positions `[15, 22, 20, 12]` on a line with
minimum clearance 10 and the fixed 3 passes — the pair of nodes 0 and 1
starts at distance 7 (below clearance) and ends at distance
199/32 = 6.21875, strictly closer than before the passes. -/
theorem c7_counterexample :
    distOf ((c7pre.getD 1 (0, 0)).1 - (c7pre.getD 0 (0, 0)).1)
           ((c7pre.getD 1 (0, 0)).2 - (c7pre.getD 0 (0, 0)).2) = 7 ∧
    (7 : ℚ) < 10 ∧
    distOf (((de_overlap c7pre 10 3).getD 1 (0, 0)).1 -
            ((de_overlap c7pre 10 3).getD 0 (0, 0)).1)
           (((de_overlap c7pre 10 3).getD 1 (0, 0)).2 -
            ((de_overlap c7pre 10 3).getD 0 (0, 0)).2) = 199 / 32 ∧
    (199 / 32 : ℚ) < 7 := by
  have hpost : de_overlap c7pre 10 3 =
      [(787 / 32, 0), (493 / 16, 0), (973 / 64, 0), (333 / 64, 0)] := by
    norm_num [c7pre, de_overlap, onePass, iStep, innerJ, distOf, hypotQ,
      List.range, List.range', List.range.loop, abs]
  refine ⟨?_, by norm_num, ?_, by norm_num⟩
  · norm_num [c7pre, distOf, hypotQ, abs]
  · rw [hpost]
    norm_num [distOf, hypotQ, abs]

end Ghost
